import Mathlib

/-!
Verification of `infinigen_examples/asset_dev.py`.

Python dictionaries are insertion-ordered mappings with unique keys; we
embed them as association lists `List (String × α)` kept in insertion
order.  `dictSet` embeds `d[k] = v` (replace the value of an existing key
in place, otherwise append the new key at the end) and `dictUpdate` embeds
`d.update(ov)` (a left fold of `dictSet` over the items of `ov`).

`iter_overrides` embeds the generator of the same name: the midpoint
computation `v[len(v)//2]` raises `IndexError` on an empty candidate
list, which we embed as `Option` (`none` = the generator raises when
first advanced).
-/

namespace AssetDev

variable {α : Type}

/-- A Python dict with string keys, as an insertion-ordered association list. -/
abbrev Dict (α : Type) := List (String × α)

/-- The keys of a dict, in insertion order (`list(d.keys())`). -/
def keys (d : Dict α) : List String := d.map Prod.fst

/-- Python `d[k]` as a total function: `some` of the value of the first entry with
key `k`, `none` when `k` is absent (a `KeyError` in Python). -/
def lookupD : Dict α → String → Option α
  | [], _ => none
  | (k', v) :: d, k => if k' = k then some v else lookupD d k

/-- Python `d[k] = v`: replace the value of the first entry with key `k`
keeping its position, or append `(k, v)` at the end when `k` is absent. -/
def dictSet : Dict α → String → α → Dict α
  | [], k, v => [(k, v)]
  | (k', v') :: d, k, v =>
      if k' = k then (k, v) :: d else (k', v') :: dictSet d k v

/-- Python `d.update(ov)`: `d[k] = v` for each item `(k, v)` of `ov` in order. -/
def dictUpdate : Dict α → Dict α → Dict α
  | d, [] => d
  | d, (k, v) :: t => dictUpdate (dictSet d k v) t

/-- The override application performed by `MyAsset.__init__`
(`self.params.update(overrides)`) and `compose_scene`
(`factory.params.update(overrides)`). -/
def apply_overrides (params overrides : Dict α) : Dict α :=
  dictUpdate params overrides

/-- Python `v[len(v)//2]`: `none` embeds the `IndexError` raised on an empty list. -/
def midVal (v : List α) : Option α := v.get? (v.length / 2)

/-- The dict comprehension computing `mid_vals` in `iter_overrides`:
`{k: v[len(v)//2] for k, v in ranges.items()}`; `none` when some
candidate list is empty (the comprehension raises `IndexError`). -/
def mid_vals : List (String × List α) → Option (Dict α)
  | [] => some []
  | (k, v) :: t =>
      match midVal v, mid_vals t with
      | some m, some rest => some ((k, m) :: rest)
      | _, _ => none

/-- The body of the double loop of `iter_overrides`: for each `(k, v)` of
`ranges` in order, for each `vi` in `v` in order, yield
`res = copy(mid_vals); res[k] = vi`. -/
def sweepYields (mv : Dict α) : List (String × List α) → List (Dict α)
  | [] => []
  | (k, v) :: t => v.map (fun vi => dictSet mv k vi) ++ sweepYields mv t

/-- The generator `iter_overrides(ranges)`, materialized: the list of all yielded
override sets, or `none` when the generator raises on its first step
(empty candidate list in the midpoint computation). -/
def iter_overrides (ranges : List (String × List α)) : Option (List (Dict α)) :=
  (mid_vals ranges).map (fun mv => sweepYields mv ranges)

/-- The documented semantics of `np.random.uniform(lo, hi)`: it returns
`lo + (hi - lo) * u` for a draw `u` uniform on the half-open unit
interval `[0, 1)`. -/
def npUniform (lo hi u : ℚ) : ℚ := lo + (hi - lo) * u

/-- Embeds `MyAsset.sample_params`, as a function of the four unit-interval draws
`u1..u4` consumed from the random source, building the dict literal in
source order. -/
def sample_params (u1 u2 u3 u4 : ℚ) : Dict ℚ :=
  [("major_radius", npUniform 1 2 u1),
   ("minor_radius", npUniform (1/10) 1 u2),
   ("noise_scale", npUniform 1 20 u3),
   ("noise_distortion", npUniform 0 5 u4)]

/-- Modelled from the spec: the process-wide random source manipulated by
`FixedSeed` (from `infinigen.core.util.math`, not present under `src/`).
Per the spec's determinism requirement, seeding puts the source into a
state that is a pure function of the seed (`seedState`), and the value
drawn at a given state is a pure function of that state (`value`); a
state advances by one per draw. -/
structure RandomSource where
  seedState : ℤ → ℕ
  value : ℕ → ℚ

/-- Embeds `MyAsset.__init__(factory_seed, overrides)`: inside
`with FixedSeed(factory_seed)` the params are sampled (four draws from
the freshly seeded source) and, when `overrides is not None`,
`self.params.update(overrides)` is applied; the ambient random state is
restored when the `FixedSeed` block exits. Returns the resulting
`self.params` together with the restored ambient state. -/
def myAsset_init (R : RandomSource) (factory_seed : ℤ)
    (overrides : Option (Dict ℚ)) (ambient : ℕ) : Dict ℚ × ℕ :=
  let st := R.seedState factory_seed
  let p := sample_params (R.value st) (R.value (st + 1))
    (R.value (st + 2)) (R.value (st + 3))
  (match overrides with
   | none => p
   | some ov => apply_overrides p ov, ambient)

/-- One yielded value of the `iter_overrides` generator together with the
identity (heap address) of the fresh dict object allocated for it by
`copy(mid_vals)`. -/
structure GenStep (α : Type) where
  addr : ℕ
  val : Dict α
  deriving DecidableEq, Repr

/-- Tag each yielded dict with a fresh address from a counting allocator:
the `i`-th yield of the generator lives at address `a + i`. -/
def allocList : List (Dict α) → ℕ → List (GenStep α)
  | [], _ => []
  | d :: t, a => ⟨a, d⟩ :: allocList t (a + 1)

/-- The generator `iter_overrides` with object identities made explicit: each step's
`copy(mid_vals)` allocates a fresh dict object at a fresh address. -/
def iter_overrides_alloc (ranges : List (String × List α)) (a0 : ℕ) :
    Option (List (GenStep α)) :=
  (mid_vals ranges).map (fun mv => allocList (sweepYields mv ranges) a0)

/-! ### Basic dict lemmas -/

theorem keys_cons (k : String) (v : α) (d : Dict α) :
    keys ((k, v) :: d) = k :: keys d := rfl

theorem mem_keys_of_mem (d : Dict α) (k : String) (v : α) (h : (k, v) ∈ d) :
    k ∈ keys d :=
  List.mem_map_of_mem Prod.fst h

theorem lookupD_dictSet_self (d : Dict α) (k : String) (v : α) :
    lookupD (dictSet d k v) k = some v := by
  induction d with
  | nil => simp [dictSet, lookupD]
  | cons p t ih =>
      obtain ⟨k', v'⟩ := p
      by_cases h : k' = k
      · simp [dictSet, h, lookupD]
      · simp [dictSet, h, lookupD, ih]

theorem lookupD_dictSet_ne (d : Dict α) (k j : String) (v : α) (h : j ≠ k) :
    lookupD (dictSet d k v) j = lookupD d j := by
  induction d with
  | nil => simp [dictSet, lookupD, Ne.symm h]
  | cons p t ih =>
      obtain ⟨k', v'⟩ := p
      by_cases hk : k' = k
      · subst hk
        simp [dictSet, lookupD, Ne.symm h]
      · simp [dictSet, hk, lookupD, ih]

theorem lookupD_eq_none_iff (d : Dict α) (k : String) :
    lookupD d k = none ↔ k ∉ keys d := by
  induction d with
  | nil => simp [lookupD, keys]
  | cons p t ih =>
      obtain ⟨k', v'⟩ := p
      rw [keys_cons]
      by_cases h : k' = k
      · subst h
        simp [lookupD]
      · simp [lookupD, h, ih, Ne.symm h]

theorem keys_dictSet_of_mem (d : Dict α) (k : String) (v : α) (h : k ∈ keys d) :
    keys (dictSet d k v) = keys d := by
  induction d with
  | nil => simp [keys] at h
  | cons p t ih =>
      obtain ⟨k', v'⟩ := p
      by_cases hk : k' = k
      · simp [dictSet, hk, keys_cons]
      · rw [keys_cons] at h
        have ht : k ∈ keys t := by
          rcases List.mem_cons.mp h with h | h
          · exact absurd h.symm hk
          · exact h
        rw [dictSet, if_neg hk, keys_cons, keys_cons, ih ht]

theorem keys_dictSet_of_not_mem (d : Dict α) (k : String) (v : α) (h : k ∉ keys d) :
    keys (dictSet d k v) = keys d ++ [k] := by
  induction d with
  | nil => simp [dictSet, keys]
  | cons p t ih =>
      obtain ⟨k', v'⟩ := p
      rw [keys_cons] at h
      have hk : k' ≠ k := fun hc => h (hc ▸ List.mem_cons_self k' (keys t))
      have ht : k ∉ keys t := fun hc => h (List.mem_cons_of_mem _ hc)
      rw [dictSet, if_neg hk, keys_cons, keys_cons, ih ht, List.cons_append]

theorem lookupD_of_mem_nodup (d : Dict α) (k : String) (v : α)
    (hnd : (keys d).Nodup) (hm : (k, v) ∈ d) : lookupD d k = some v := by
  induction d with
  | nil => simp at hm
  | cons p t ih =>
      obtain ⟨k', v'⟩ := p
      rw [keys_cons, List.nodup_cons] at hnd
      rcases List.mem_cons.mp hm with h | h
      · rw [Prod.mk.injEq] at h
        obtain ⟨h1, h2⟩ := h
        subst h1; subst h2
        simp [lookupD]
      · have hk : k' ≠ k := by
          intro hc
          subst hc
          exact hnd.1 (mem_keys_of_mem t k' v h)
        simp [lookupD, hk]
        exact ih hnd.2 h

theorem dictSet_of_lookupD_eq (d : Dict α) (k : String) (v : α)
    (h : lookupD d k = some v) : dictSet d k v = d := by
  induction d with
  | nil => simp [lookupD] at h
  | cons p t ih =>
      obtain ⟨k', v'⟩ := p
      by_cases hk : k' = k
      · subst hk
        simp [lookupD] at h
        simp [dictSet, h]
      · simp [lookupD, hk] at h
        simp [dictSet, hk, ih h]

theorem lookupD_dictUpdate_of_none (d ov : Dict α) (k : String)
    (h : lookupD ov k = none) : lookupD (dictUpdate d ov) k = lookupD d k := by
  induction ov generalizing d with
  | nil => rfl
  | cons p t ih =>
      obtain ⟨k', v'⟩ := p
      by_cases hk : k' = k
      · simp [lookupD, hk] at h
      · simp [lookupD, hk] at h
        rw [dictUpdate, ih _ h, lookupD_dictSet_ne _ _ _ _ (fun hc => hk hc.symm)]

theorem lookupD_dictUpdate_of_some (d ov : Dict α) (k : String) (v : α)
    (hnd : (keys ov).Nodup) (h : lookupD ov k = some v) :
    lookupD (dictUpdate d ov) k = some v := by
  induction ov generalizing d with
  | nil => simp [lookupD] at h
  | cons p t ih =>
      obtain ⟨k', v'⟩ := p
      rw [keys_cons, List.nodup_cons] at hnd
      by_cases hk : k' = k
      · subst hk
        simp [lookupD] at h
        subst h
        have ht : lookupD t k' = none := (lookupD_eq_none_iff t k').mpr hnd.1
        rw [dictUpdate, lookupD_dictUpdate_of_none _ _ _ ht, lookupD_dictSet_self]
      · simp [lookupD, hk] at h
        rw [dictUpdate]
        exact ih _ hnd.2 h

theorem keys_dictUpdate_of_subset (d ov : Dict α)
    (h : ∀ k ∈ keys ov, k ∈ keys d) : keys (dictUpdate d ov) = keys d := by
  induction ov generalizing d with
  | nil => rfl
  | cons p t ih =>
      obtain ⟨k, v⟩ := p
      have hk : k ∈ keys d := h k (by rw [keys_cons]; exact List.mem_cons_self _ _)
      rw [dictUpdate, ih]
      · exact keys_dictSet_of_mem _ _ _ hk
      · intro j hj
        rw [keys_dictSet_of_mem _ _ _ hk]
        exact h j (by rw [keys_cons]; exact List.mem_cons_of_mem _ hj)

theorem dictUpdate_eq_self (d ov : Dict α)
    (h : ∀ p ∈ ov, lookupD d p.1 = some p.2) : dictUpdate d ov = d := by
  induction ov generalizing d with
  | nil => rfl
  | cons p t ih =>
      obtain ⟨k, v⟩ := p
      have hset : dictSet d k v = d :=
        dictSet_of_lookupD_eq _ _ _ (h (k, v) (by simp))
      rw [dictUpdate, hset, ih]
      intro q hq
      exact h q (by simp [hq])

/-! ### Sweep-enumeration lemmas -/

theorem midVal_isSome (v : List α) (h : v ≠ []) : ∃ m, midVal v = some m := by
  have hlen : 0 < v.length := List.length_pos.mpr h
  have hlt : v.length / 2 < v.length := Nat.div_lt_self hlen (by norm_num)
  exact ⟨v.get ⟨v.length / 2, hlt⟩, List.get?_eq_get hlt⟩

theorem mid_vals_isSome (ranges : List (String × List α))
    (h : ∀ p ∈ ranges, p.2 ≠ []) : ∃ mv, mid_vals ranges = some mv := by
  induction ranges with
  | nil => exact ⟨[], rfl⟩
  | cons p t ih =>
      obtain ⟨k, v⟩ := p
      obtain ⟨m, hm⟩ := midVal_isSome v (h (k, v) (by simp))
      obtain ⟨rest, hrest⟩ := ih (fun q hq => h q (List.mem_cons_of_mem _ hq))
      exact ⟨(k, m) :: rest, by rw [mid_vals, hm, hrest]⟩

theorem mid_vals_eq_none_of_empty (ranges : List (String × List α))
    (h : ∃ p ∈ ranges, p.2 = []) : mid_vals ranges = none := by
  induction ranges with
  | nil => simp at h
  | cons p t ih =>
      obtain ⟨k, v⟩ := p
      obtain ⟨q, hq, hqe⟩ := h
      rcases List.mem_cons.mp hq with hq | hq
      · subst hq
        simp only at hqe
        rw [mid_vals, hqe]
        rfl
      · rw [mid_vals, ih ⟨q, hq, hqe⟩]
        rcases midVal v with _ | m <;> rfl

theorem keys_mid_vals (ranges : List (String × List α)) (mv : Dict α)
    (h : mid_vals ranges = some mv) : keys mv = keys ranges := by
  induction ranges generalizing mv with
  | nil =>
      rw [mid_vals] at h
      obtain rfl : ([] : Dict α) = mv := Option.some.inj h
      rfl
  | cons p t ih =>
      obtain ⟨k, v⟩ := p
      rcases hm : midVal v with _ | m <;> rcases hr : mid_vals t with _ | rest <;>
          rw [mid_vals, hm, hr] at h
      · exact Option.noConfusion h
      · exact Option.noConfusion h
      · exact Option.noConfusion h
      · obtain rfl : (k, m) :: rest = mv := Option.some.inj h
        rw [keys_cons, keys_cons, ih rest hr]

theorem lookupD_mid_vals (ranges : List (String × List α)) (mv : Dict α)
    (hnd : (keys ranges).Nodup) (h : mid_vals ranges = some mv)
    (k : String) (cand : List α) (hk : lookupD ranges k = some cand) :
    ∃ m, midVal cand = some m ∧ lookupD mv k = some m := by
  induction ranges generalizing mv with
  | nil => simp [lookupD] at hk
  | cons p t ih =>
      obtain ⟨k', v⟩ := p
      rw [keys_cons, List.nodup_cons] at hnd
      rcases hm : midVal v with _ | m <;> rcases hr : mid_vals t with _ | rest <;>
          rw [mid_vals, hm, hr] at h
      · exact Option.noConfusion h
      · exact Option.noConfusion h
      · exact Option.noConfusion h
      obtain rfl : (k', m) :: rest = mv := Option.some.inj h
      by_cases hkk : k' = k
      · subst hkk
        rw [lookupD, if_pos rfl] at hk
        obtain rfl : v = cand := Option.some.inj hk
        exact ⟨m, hm, by rw [lookupD, if_pos rfl]⟩
      · rw [lookupD, if_neg hkk] at hk
        obtain ⟨m', hm', hl⟩ := ih rest hnd.2 hr hk
        exact ⟨m', hm', by rw [lookupD, if_neg hkk]; exact hl⟩

theorem length_sweepYields (mv : Dict α) (ranges : List (String × List α)) :
    (sweepYields mv ranges).length = (ranges.map (fun p => p.2.length)).sum := by
  induction ranges with
  | nil => rfl
  | cons p t ih =>
      obtain ⟨k, v⟩ := p
      rw [sweepYields, List.length_append, List.length_map, ih, List.map_cons,
        List.sum_cons]

theorem mem_sweepYields (mv : Dict α) (ranges : List (String × List α))
    (o : Dict α) (h : o ∈ sweepYields mv ranges) :
    ∃ k cand, (k, cand) ∈ ranges ∧ ∃ vi ∈ cand, o = dictSet mv k vi := by
  induction ranges with
  | nil => simp [sweepYields] at h
  | cons p t ih =>
      obtain ⟨k, v⟩ := p
      rw [sweepYields] at h
      rcases List.mem_append.mp h with h | h
      · obtain ⟨vi, hvi, rfl⟩ := List.mem_map.mp h
        exact ⟨k, v, by simp, vi, hvi, rfl⟩
      · obtain ⟨k', cand, hmem, vi, hvi, rfl⟩ := ih h
        exact ⟨k', cand, List.mem_cons_of_mem _ hmem, vi, hvi, rfl⟩

/-! ### Allocation lemmas -/

theorem allocList_addr_ge (l : List (Dict α)) (a : ℕ) :
    ∀ s ∈ allocList l a, a ≤ s.addr := by
  induction l generalizing a with
  | nil => intro s hs; simp [allocList] at hs
  | cons d t ih =>
      intro s hs
      rcases List.mem_cons.mp hs with h | h
      · subst h; exact Nat.le_refl a
      · exact Nat.le_of_succ_le (ih (a + 1) s h)

theorem allocList_addr_pairwise (l : List (Dict α)) (a : ℕ) :
    (allocList l a).Pairwise (fun s t => s.addr ≠ t.addr) := by
  induction l generalizing a with
  | nil => exact List.Pairwise.nil
  | cons d t ih =>
      refine List.Pairwise.cons ?_ (ih (a + 1))
      intro s hs
      have := allocList_addr_ge t (a + 1) s hs
      exact fun hc => by simp at hc; omega

theorem allocList_val_mem (l : List (Dict α)) (a : ℕ) :
    ∀ s ∈ allocList l a, s.val ∈ l := by
  induction l generalizing a with
  | nil => intro s hs; simp [allocList] at hs
  | cons d t ih =>
      intro s hs
      rcases List.mem_cons.mp hs with h | h
      · subst h; exact List.mem_cons_self _ _
      · exact List.mem_cons_of_mem _ (ih (a + 1) s h)

theorem keys_sweepYields (mv : Dict α) (ranges : List (String × List α))
    (hkeys : keys mv = keys ranges) :
    ∀ o ∈ sweepYields mv ranges, keys o = keys ranges := by
  intro o ho
  obtain ⟨k, cand, hmem, vi, _, rfl⟩ := mem_sweepYields mv ranges o ho
  have hk : k ∈ keys mv := hkeys ▸ mem_keys_of_mem ranges k cand hmem
  rw [keys_dictSet_of_mem mv k vi hk, hkeys]

/-! ### Claims -/

/-- C1 counterexample: with base params holding the four sampled keys and
an override containing only the unknown key "color", `update` does not
fail; it returns a ParameterSet with the unknown key appended. -/
theorem apply_overrides_unknown_key_returns_result :
    apply_overrides
        [("major_radius", (1 : ℤ)), ("minor_radius", 2),
         ("noise_scale", 3), ("noise_distortion", 4)]
        [("color", 7)] =
      [("major_radius", 1), ("minor_radius", 2), ("noise_scale", 3),
       ("noise_distortion", 4), ("color", 7)] := by
  decide

/-- C1 (amended): applying an override mapping containing a key absent
from the base ParameterSet does not signal an error; `dict.update`
silently adds each unknown key, mapped to its override value, to the
resulting ParameterSet. -/
theorem apply_overrides_unknown_keys_silently_added (d ov : Dict α)
    (hnd : (keys ov).Nodup) (k : String) (v : α)
    (hk : lookupD ov k = some v) (_hunk : k ∉ keys d) :
    lookupD (apply_overrides d ov) k = some v ∧
      k ∈ keys (apply_overrides d ov) := by
  have h1 : lookupD (apply_overrides d ov) k = some v :=
    lookupD_dictUpdate_of_some d ov k v hnd hk
  refine ⟨h1, ?_⟩
  by_contra hc
  rw [← lookupD_eq_none_iff] at hc
  rw [h1] at hc
  exact Option.noConfusion hc

/-- C1 witness: the amended claim at the counterexample's input. -/
theorem apply_overrides_unknown_keys_silently_added_witness :
    ((keys [("color", (7 : ℤ))]).Nodup ∧
        lookupD [("color", (7 : ℤ))] "color" = some 7 ∧
        "color" ∉ keys [("major_radius", (1 : ℤ))]) ∧
      (lookupD (apply_overrides [("major_radius", (1 : ℤ))]
            [("color", 7)]) "color" = some 7 ∧
        "color" ∈ keys (apply_overrides [("major_radius", (1 : ℤ))]
            [("color", 7)])) :=
  ⟨⟨by decide, by decide, by decide⟩,
    apply_overrides_unknown_keys_silently_added
      [("major_radius", (1 : ℤ))] [("color", 7)] (by decide) "color" 7
      (by decide) (by decide)⟩

/-- C2 counterexample: a RangeSpec whose first parameter has an empty
candidate list.  The claim expects the enumeration to succeed and to
yield the single step of "minor_radius"; instead the generator raises an
IndexError computing the midpoint (embedded as `none`), producing no
steps at all. -/
theorem iter_overrides_empty_range_counterexample :
    iter_overrides [("major_radius", ([] : List ℤ)), ("minor_radius", [5])] =
      none := by
  decide

/-- C2 (amended): for every RangeSpec in which some parameter's candidate
list is empty, the sweep enumeration fails (the midpoint computation
`v[len(v)//2]` raises an IndexError on the empty list); no OverrideSet is
produced, not even for the other parameters. -/
theorem iter_overrides_empty_range_fails (ranges : List (String × List α))
    (h : ∃ p ∈ ranges, p.2 = []) : iter_overrides ranges = none := by
  rw [iter_overrides, mid_vals_eq_none_of_empty ranges h]
  rfl

/-- C2 witness: the amended claim at the counterexample's input. -/
theorem iter_overrides_empty_range_fails_witness :
    (∃ p ∈ [("major_radius", ([] : List ℤ)), ("minor_radius", [5])],
        p.2 = []) ∧
      iter_overrides [("major_radius", ([] : List ℤ)),
        ("minor_radius", [5])] = none :=
  ⟨by decide,
    iter_overrides_empty_range_fails
      [("major_radius", ([] : List ℤ)), ("minor_radius", [5])] (by decide)⟩

/-- C3: for every RangeSpec whose candidate lists are all non-empty, the
sweep enumeration succeeds and yields exactly the sum of the candidate
counts. -/
theorem iter_overrides_yield_count (ranges : List (String × List α))
    (h : ∀ p ∈ ranges, p.2 ≠ []) :
    ∃ l, iter_overrides ranges = some l ∧
      l.length = (ranges.map (fun p => p.2.length)).sum := by
  obtain ⟨mv, hmv⟩ := mid_vals_isSome ranges h
  refine ⟨sweepYields mv ranges, ?_, length_sweepYields mv ranges⟩
  rw [iter_overrides, hmv]
  rfl

/-- C3 witness: a two-parameter RangeSpec with 3 + 2 candidates. -/
theorem iter_overrides_yield_count_witness :
    (∀ p ∈ [("major_radius", [(1 : ℤ), 2, 3]), ("minor_radius", [4, 5])],
        p.2 ≠ []) ∧
      ∃ l, iter_overrides [("major_radius", [(1 : ℤ), 2, 3]),
          ("minor_radius", [4, 5])] = some l ∧
        l.length = ([("major_radius", [(1 : ℤ), 2, 3]),
          ("minor_radius", [4, 5])].map (fun p => p.2.length)).sum :=
  ⟨by decide,
    iter_overrides_yield_count
      [("major_radius", [(1 : ℤ), 2, 3]), ("minor_radius", [4, 5])]
      (by decide)⟩

/-- C4: the midpoint dict maps each parameter to the `len(v)//2`-indexed
candidate of its own list, and every yielded OverrideSet agrees with the
midpoint dict at every parameter other than a single swept one, whose
value is some candidate drawn from that parameter's own range list. -/
theorem iter_overrides_one_factor_at_a_time
    (ranges : List (String × List α)) (mv : Dict α) (l : List (Dict α))
    (hnd : (keys ranges).Nodup) (hmv : mid_vals ranges = some mv)
    (hl : iter_overrides ranges = some l) :
    (∀ k cand, (k, cand) ∈ ranges →
        ∃ m, midVal cand = some m ∧ lookupD mv k = some m) ∧
      ∀ o ∈ l, ∃ k cand, (k, cand) ∈ ranges ∧
        ∃ vi ∈ cand, lookupD o k = some vi ∧
          ∀ j, j ≠ k → lookupD o j = lookupD mv j := by
  rw [iter_overrides, hmv] at hl
  obtain rfl : sweepYields mv ranges = l := Option.some.inj hl
  constructor
  · intro k cand hmem
    exact lookupD_mid_vals ranges mv hnd hmv k cand
      (lookupD_of_mem_nodup ranges k cand hnd hmem)
  · intro o ho
    obtain ⟨k, cand, hmem, vi, hvi, rfl⟩ := mem_sweepYields mv ranges o ho
    exact ⟨k, cand, hmem, vi, hvi, lookupD_dictSet_self mv k vi,
      fun j hj => lookupD_dictSet_ne mv k j vi hj⟩

/-- C4 witness: the one-factor-at-a-time shape at a concrete RangeSpec. -/
theorem iter_overrides_one_factor_at_a_time_witness :
    ((keys [("major_radius", [(1 : ℤ), 2, 3]), ("minor_radius", [4, 5])]).Nodup ∧
        mid_vals [("major_radius", [(1 : ℤ), 2, 3]), ("minor_radius", [4, 5])] =
          some [("major_radius", 2), ("minor_radius", 5)] ∧
        iter_overrides [("major_radius", [(1 : ℤ), 2, 3]),
            ("minor_radius", [4, 5])] =
          some [[("major_radius", 1), ("minor_radius", 5)],
            [("major_radius", 2), ("minor_radius", 5)],
            [("major_radius", 3), ("minor_radius", 5)],
            [("major_radius", 2), ("minor_radius", 4)],
            [("major_radius", 2), ("minor_radius", 5)]]) ∧
      ((∀ k cand, (k, cand) ∈ [("major_radius", [(1 : ℤ), 2, 3]),
            ("minor_radius", [4, 5])] →
          ∃ m, midVal cand = some m ∧
            lookupD [("major_radius", 2), ("minor_radius", 5)] k = some m) ∧
        ∀ o ∈ [[("major_radius", (1 : ℤ)), ("minor_radius", 5)],
            [("major_radius", 2), ("minor_radius", 5)],
            [("major_radius", 3), ("minor_radius", 5)],
            [("major_radius", 2), ("minor_radius", 4)],
            [("major_radius", 2), ("minor_radius", 5)]],
          ∃ k cand, (k, cand) ∈ [("major_radius", [(1 : ℤ), 2, 3]),
              ("minor_radius", [4, 5])] ∧
            ∃ vi ∈ cand, lookupD o k = some vi ∧
              ∀ j, j ≠ k →
                lookupD o j =
                  lookupD [("major_radius", 2), ("minor_radius", 5)] j) :=
  ⟨⟨by decide, by decide, by decide⟩,
    iter_overrides_one_factor_at_a_time
      [("major_radius", [(1 : ℤ), 2, 3]), ("minor_radius", [4, 5])]
      [("major_radius", 2), ("minor_radius", 5)]
      [[("major_radius", 1), ("minor_radius", 5)],
        [("major_radius", 2), ("minor_radius", 5)],
        [("major_radius", 3), ("minor_radius", 5)],
        [("major_radius", 2), ("minor_radius", 4)],
        [("major_radius", 2), ("minor_radius", 5)]]
      (by decide) (by decide) (by decide)⟩

/-- C5: the end-to-end scenario.  For the RangeSpec with
major_radius candidates 1, 1.5, 2 and minor_radius candidates
0.1, 0.55, 1 (in that insertion order), the enumeration yields 6
OverrideSets; the one at position 0 sets major_radius to 1 and
minor_radius to the midpoint 0.55, and the one at position 3 sets
major_radius to the midpoint 1.5 and minor_radius to 0.1. -/
theorem iter_overrides_end_to_end_example :
    ∃ l, iter_overrides [("major_radius", [(1 : ℚ), 1.5, 2]),
        ("minor_radius", [0.1, 0.55, 1])] = some l ∧
      l.length = 6 ∧
      l.get? 0 = some [("major_radius", 1), ("minor_radius", 0.55)] ∧
      l.get? 3 = some [("major_radius", 1.5), ("minor_radius", 0.1)] :=
  ⟨[[("major_radius", 1), ("minor_radius", 0.55)],
    [("major_radius", 1.5), ("minor_radius", 0.55)],
    [("major_radius", 2), ("minor_radius", 0.55)],
    [("major_radius", 1.5), ("minor_radius", 0.1)],
    [("major_radius", 1.5), ("minor_radius", 0.55)],
    [("major_radius", 1.5), ("minor_radius", 1)]],
   rfl, rfl, rfl, rfl⟩

/-- C6: when every override key is present in the base ParameterSet,
applying the overrides keeps the key set unchanged, maps every
overridden key to its override value and leaves every other key at its
original base value. -/
theorem apply_overrides_known_keys (d ov : Dict α)
    (hnd : (keys ov).Nodup) (hsub : ∀ k ∈ keys ov, k ∈ keys d) :
    keys (apply_overrides d ov) = keys d ∧
      (∀ k v, lookupD ov k = some v →
        lookupD (apply_overrides d ov) k = some v) ∧
      (∀ k, lookupD ov k = none →
        lookupD (apply_overrides d ov) k = lookupD d k) :=
  ⟨keys_dictUpdate_of_subset d ov hsub,
    fun k v h => lookupD_dictUpdate_of_some d ov k v hnd h,
    fun k h => lookupD_dictUpdate_of_none d ov k h⟩

/-- C6 witness: overriding minor_radius of a two-key base. -/
theorem apply_overrides_known_keys_witness :
    ((keys [("minor_radius", (9 : ℤ))]).Nodup ∧
        (∀ k ∈ keys [("minor_radius", (9 : ℤ))],
          k ∈ keys [("major_radius", (1 : ℤ)), ("minor_radius", 2)])) ∧
      (keys (apply_overrides [("major_radius", (1 : ℤ)), ("minor_radius", 2)]
            [("minor_radius", 9)]) =
          keys [("major_radius", (1 : ℤ)), ("minor_radius", 2)] ∧
        (∀ k v, lookupD [("minor_radius", (9 : ℤ))] k = some v →
          lookupD (apply_overrides [("major_radius", (1 : ℤ)),
            ("minor_radius", 2)] [("minor_radius", 9)]) k = some v) ∧
        (∀ k, lookupD [("minor_radius", (9 : ℤ))] k = none →
          lookupD (apply_overrides [("major_radius", (1 : ℤ)),
              ("minor_radius", 2)] [("minor_radius", 9)]) k =
            lookupD [("major_radius", (1 : ℤ)), ("minor_radius", 2)] k)) :=
  ⟨⟨by decide, by decide⟩,
    apply_overrides_known_keys
      [("major_radius", (1 : ℤ)), ("minor_radius", 2)]
      [("minor_radius", 9)] (by decide) (by decide)⟩

/-- C7: override application is idempotent; applying the same override
mapping twice yields the same ParameterSet (the same dict, entry for
entry) as applying it once. -/
theorem apply_overrides_idempotent (d ov : Dict α)
    (hnd : (keys ov).Nodup) :
    apply_overrides (apply_overrides d ov) ov = apply_overrides d ov := by
  apply dictUpdate_eq_self
  intro p hp
  exact lookupD_dictUpdate_of_some d ov p.1 p.2 hnd
    (lookupD_of_mem_nodup ov p.1 p.2 hnd hp)

/-- C7 witness: idempotence at a concrete base and override pair, with
one known and one unknown override key. -/
theorem apply_overrides_idempotent_witness :
    (keys [("minor_radius", (9 : ℤ)), ("color", 7)]).Nodup ∧
      apply_overrides
          (apply_overrides [("major_radius", (1 : ℤ)), ("minor_radius", 2)]
            [("minor_radius", 9), ("color", 7)])
          [("minor_radius", 9), ("color", 7)] =
        apply_overrides [("major_radius", (1 : ℤ)), ("minor_radius", 2)]
          [("minor_radius", 9), ("color", 7)] :=
  ⟨by decide,
    apply_overrides_idempotent
      [("major_radius", (1 : ℤ)), ("minor_radius", 2)]
      [("minor_radius", 9), ("color", 7)] (by decide)⟩

/-- C8: whenever the four unit-interval draws consumed from the random
source lie in `[0, 1)` (the codomain of the underlying uniform
generator), `sample_params` returns a dict with exactly the keys
major_radius, minor_radius, noise_scale, noise_distortion, whose values
lie in `[1,2]`, `[0.1,1]`, `[1,20]` and `[0,5]` respectively. -/
theorem sample_params_keys_and_ranges (u1 u2 u3 u4 : ℚ)
    (h1 : 0 ≤ u1) (h1' : u1 < 1) (h2 : 0 ≤ u2) (h2' : u2 < 1)
    (h3 : 0 ≤ u3) (h3' : u3 < 1) (h4 : 0 ≤ u4) (h4' : u4 < 1) :
    keys (sample_params u1 u2 u3 u4) =
        ["major_radius", "minor_radius", "noise_scale", "noise_distortion"] ∧
      (∃ a, lookupD (sample_params u1 u2 u3 u4) "major_radius" = some a ∧
        1 ≤ a ∧ a ≤ 2) ∧
      (∃ a, lookupD (sample_params u1 u2 u3 u4) "minor_radius" = some a ∧
        1/10 ≤ a ∧ a ≤ 1) ∧
      (∃ a, lookupD (sample_params u1 u2 u3 u4) "noise_scale" = some a ∧
        1 ≤ a ∧ a ≤ 20) ∧
      (∃ a, lookupD (sample_params u1 u2 u3 u4) "noise_distortion" = some a ∧
        0 ≤ a ∧ a ≤ 5) := by
  refine ⟨rfl,
    ⟨npUniform 1 2 u1, rfl, ?_, ?_⟩,
    ⟨npUniform (1/10) 1 u2, rfl, ?_, ?_⟩,
    ⟨npUniform 1 20 u3, rfl, ?_, ?_⟩,
    ⟨npUniform 0 5 u4, rfl, ?_, ?_⟩⟩ <;>
      simp only [npUniform] <;> nlinarith

/-- C8 witness: all four draws equal to one half. -/
theorem sample_params_keys_and_ranges_witness :
    ((0 : ℚ) ≤ 1/2 ∧ (1/2 : ℚ) < 1) ∧
      (keys (sample_params (1/2) (1/2) (1/2) (1/2)) =
          ["major_radius", "minor_radius", "noise_scale",
            "noise_distortion"] ∧
        (∃ a, lookupD (sample_params (1/2) (1/2) (1/2) (1/2))
            "major_radius" = some a ∧ 1 ≤ a ∧ a ≤ 2) ∧
        (∃ a, lookupD (sample_params (1/2) (1/2) (1/2) (1/2))
            "minor_radius" = some a ∧ 1/10 ≤ a ∧ a ≤ 1) ∧
        (∃ a, lookupD (sample_params (1/2) (1/2) (1/2) (1/2))
            "noise_scale" = some a ∧ 1 ≤ a ∧ a ≤ 20) ∧
        (∃ a, lookupD (sample_params (1/2) (1/2) (1/2) (1/2))
            "noise_distortion" = some a ∧ 0 ≤ a ∧ a ≤ 5)) :=
  ⟨⟨by norm_num, by norm_num⟩,
    sample_params_keys_and_ranges (1/2) (1/2) (1/2) (1/2)
      (by norm_num) (by norm_num) (by norm_num) (by norm_num)
      (by norm_num) (by norm_num) (by norm_num) (by norm_num)⟩

/-- C9: sampling is deterministic in the seed.  Two `MyAsset`
constructions under the same `factory_seed` produce identical
ParameterSets, whatever the ambient random state of each process was
before `FixedSeed` seeded it. -/
theorem myAsset_init_seed_deterministic (R : RandomSource) (seed : ℤ)
    (ov : Option (Dict ℚ)) (amb1 amb2 : ℕ) :
    (myAsset_init R seed ov amb1).1 = (myAsset_init R seed ov amb2).1 :=
  rfl

/-- C10: every successful sweep enumeration yields freshly allocated
dicts: the yielded addresses are pairwise distinct, every yielded dict
has exactly the RangeSpec's key set, and writing to one yielded dict's
address leaves the contents at any other yielded address unchanged. -/
theorem iter_overrides_fresh_disjoint (ranges : List (String × List α))
    (a0 : ℕ) (steps : List (GenStep α))
    (hs : iter_overrides_alloc ranges a0 = some steps) :
    steps.Pairwise (fun s t => s.addr ≠ t.addr) ∧
      (∀ s ∈ steps, keys s.val = keys ranges) ∧
      (∀ s ∈ steps, ∀ t ∈ steps, s.addr ≠ t.addr →
        ∀ (heap : ℕ → Dict α) (w : Dict α),
          Function.update heap s.addr w t.addr = heap t.addr) := by
  rcases hmv : mid_vals ranges with _ | mv <;>
      rw [iter_overrides_alloc, hmv] at hs
  · exact Option.noConfusion hs
  obtain rfl : allocList (sweepYields mv ranges) a0 = steps :=
    Option.some.inj hs
  refine ⟨allocList_addr_pairwise _ a0, ?_, ?_⟩
  · intro s hsm
    exact keys_sweepYields mv ranges (keys_mid_vals ranges mv hmv) s.val
      (allocList_val_mem _ a0 s hsm)
  · intro s _ t _ hne heap w
    exact Function.update_noteq (Ne.symm hne) w heap

/-- C10 witness: a one-parameter RangeSpec with two candidates,
allocated from address 0. -/
theorem iter_overrides_fresh_disjoint_witness :
    iter_overrides_alloc [("major_radius", [(1 : ℤ), 2])] 0 =
        some [⟨0, [("major_radius", 1)]⟩, ⟨1, [("major_radius", 2)]⟩] ∧
      ([(⟨0, [("major_radius", (1 : ℤ))]⟩ : GenStep ℤ),
          ⟨1, [("major_radius", 2)]⟩].Pairwise
          (fun s t => s.addr ≠ t.addr) ∧
        (∀ s ∈ [(⟨0, [("major_radius", (1 : ℤ))]⟩ : GenStep ℤ),
            ⟨1, [("major_radius", 2)]⟩],
          keys s.val = keys [("major_radius", [(1 : ℤ), 2])]) ∧
        (∀ s ∈ [(⟨0, [("major_radius", (1 : ℤ))]⟩ : GenStep ℤ),
            ⟨1, [("major_radius", 2)]⟩],
          ∀ t ∈ [(⟨0, [("major_radius", (1 : ℤ))]⟩ : GenStep ℤ),
            ⟨1, [("major_radius", 2)]⟩],
          s.addr ≠ t.addr →
            ∀ (heap : ℕ → Dict ℤ) (w : Dict ℤ),
              Function.update heap s.addr w t.addr = heap t.addr)) :=
  ⟨by decide,
    iter_overrides_fresh_disjoint [("major_radius", [(1 : ℤ), 2])] 0
      [⟨0, [("major_radius", 1)]⟩, ⟨1, [("major_radius", 2)]⟩] (by decide)⟩

end AssetDev
